import Mathlib

/-!
Verification of the Claude-context discovery/sync engine of `csb`
(`src/csb/claude_context.py`, loading logic of `src/csb/cli_claude.py`).

The filesystem is embedded as a finite set of file paths and directory
paths.  A `Path` is the list of components of an absolute path in
reverse order: the head is the innermost (deepest) component and `[]`
is the filesystem root, so `Path.parent` (pathlib `.parent`) is
`List.tail` and `path / name` is `name :: path`; `parent` of the root
is the root itself, as in pathlib.
-/

/-- Absolute filesystem path, components innermost-first; `[]` is the root. -/
abbrev FsPath := List String

namespace Csb

/-- The name (last component) of a path; the root has name `""` (pathlib). -/
def FsPath.name : FsPath → String
  | [] => ""
  | n :: _ => n

/-- A snapshot of the host filesystem: which paths are regular files and
which are directories. -/
structure FS where
  files : List FsPath
  dirs : List FsPath

/-- `Path.is_file()` against the snapshot. -/
def FS.isFile (fs : FS) (p : FsPath) : Bool := decide (p ∈ fs.files)

/-- `Path.is_dir()` against the snapshot. -/
def FS.isDir (fs : FS) (p : FsPath) : Bool := decide (p ∈ fs.dirs)

/-- `Path.exists()` against the snapshot: a file or a directory. -/
def FS.existsP (fs : FS) (p : FsPath) : Bool := fs.isFile p || fs.isDir p

/-- Well-formedness of a snapshot: the parent of every recorded file or
directory is a recorded directory (true of any real filesystem). -/
def FS.wfb (fs : FS) : Bool :=
  (fs.files ++ fs.dirs).all fun q =>
    match q with
    | [] => true
    | _ :: rest => fs.isDir rest

theorem FS.wfb_parent {fs : FS} (h : fs.wfb = true) {n : String} {q : FsPath}
    (hex : fs.existsP (n :: q) = true) : fs.isDir q = true := by
  have hmem : (n :: q) ∈ fs.files ++ fs.dirs := by
    simp only [FS.existsP, FS.isFile, FS.isDir, Bool.or_eq_true, decide_eq_true_eq] at hex
    simpa using hex
  have := List.all_eq_true.mp h _ hmem
  simpa using this

/-- `DiscoveredContext`: discovered Claude context from one location
(dataclass of `claude_context.py`). -/
structure DiscoveredContext where
  source_path : FsPath
  relative_depth : Int
  claude_md : Option FsPath := none
  claude_local_md : Option FsPath := none
  rules_dir : Option FsPath := none
  skills_dir : Option FsPath := none
  agents_dir : Option FsPath := none
  commands_dir : Option FsPath := none
deriving DecidableEq, Repr

/-- `DiscoveredContext.has_content`: any of the six optional fields set. -/
def DiscoveredContext.has_content (c : DiscoveredContext) : Bool :=
  c.claude_md.isSome || c.claude_local_md.isSome || c.rules_dir.isSome ||
    c.skills_dir.isSome || c.agents_dir.isSome || c.commands_dir.isSome

/-- `ClaudeContext._scan_directory(path, depth)`: scan one location for
Claude context artifacts.  A regular file is only matched against the two
instruction-document names; otherwise the location is treated as a
directory: `CLAUDE.md` and `CLAUDE.local.md` directly under it, and, when
`.claude/` is a directory, `CLAUDE.md` inside it (taking precedence) and
the four fixed sub-collection directories inside it. -/
def scanDirectory (fs : FS) (path : FsPath) (depth : Int) : DiscoveredContext :=
  if fs.isFile path then
    { source_path := path, relative_depth := depth,
      claude_md := if FsPath.name path = "CLAUDE.md" then some path else none,
      claude_local_md :=
        if FsPath.name path = "CLAUDE.md" then none
        else if FsPath.name path = "CLAUDE.local.md" then some path else none }
  else if fs.isDir (".claude" :: path) then
    { source_path := path, relative_depth := depth,
      claude_md :=
        if fs.existsP ("CLAUDE.md" :: ".claude" :: path) then
          some ("CLAUDE.md" :: ".claude" :: path)
        else if fs.existsP ("CLAUDE.md" :: path) then some ("CLAUDE.md" :: path) else none,
      claude_local_md :=
        if fs.existsP ("CLAUDE.local.md" :: path) then some ("CLAUDE.local.md" :: path) else none,
      rules_dir :=
        if fs.isDir ("rules" :: ".claude" :: path) then some ("rules" :: ".claude" :: path) else none,
      skills_dir :=
        if fs.isDir ("skills" :: ".claude" :: path) then some ("skills" :: ".claude" :: path) else none,
      agents_dir :=
        if fs.isDir ("agents" :: ".claude" :: path) then some ("agents" :: ".claude" :: path) else none,
      commands_dir :=
        if fs.isDir ("commands" :: ".claude" :: path) then some ("commands" :: ".claude" :: path) else none }
  else
    { source_path := path, relative_depth := depth,
      claude_md :=
        if fs.existsP ("CLAUDE.md" :: path) then some ("CLAUDE.md" :: path) else none,
      claude_local_md :=
        if fs.existsP ("CLAUDE.local.md" :: path) then some ("CLAUDE.local.md" :: path) else none }

theorem scanDirectory_source_path (fs : FS) (p : FsPath) (d : Int) :
    (scanDirectory fs p d).source_path = p := by
  unfold scanDirectory; split_ifs <;> rfl

theorem scanDirectory_relative_depth (fs : FS) (p : FsPath) (d : Int) :
    (scanDirectory fs p d).relative_depth = d := by
  unfold scanDirectory; split_ifs <;> rfl

theorem scanDirectory_has_content_depth (fs : FS) (p : FsPath) (d d' : Int) :
    (scanDirectory fs p d).has_content = (scanDirectory fs p d').has_content := by
  unfold scanDirectory DiscoveredContext.has_content; split_ifs <;> rfl

/-- The loop of `ClaudeContext.discover_parent_contexts`: climb from
`current` while the depth counter stays within `maxDepth` and the
filesystem root has not been reached, skipping the home directory
(whose `.claude/` is mounted as global context) and collecting the
scans that found content, closest first. -/
def discoverFrom (fs : FS) (home : FsPath) : FsPath → Nat → Int → List DiscoveredContext
  | [], _, _ => []
  | c :: rest, depth, maxDepth =>
    if (depth : Int) > maxDepth then []
    else if c :: rest = home then
      discoverFrom fs home rest (depth + 1) maxDepth
    else
      let ctx := scanDirectory fs (c :: rest) (depth : Int)
      (if ctx.has_content then [ctx] else []) ++ discoverFrom fs home rest (depth + 1) maxDepth

/-- `ClaudeContext.discover_parent_contexts(max_depth)`: walk ancestors of
the project path starting at its parent with depth counter 1. -/
def discover_parent_contexts (fs : FS) (home projectPath : FsPath) (maxDepth : Int) :
    List DiscoveredContext :=
  discoverFrom fs home projectPath.tail 1 maxDepth

/-- A user-supplied extra source path, before `Path.expanduser()`:
either already absolute or written with a leading `~/`. -/
inductive RawPath where
  | absolute (p : FsPath)
  | homeRelative (rel : List String)
deriving DecidableEq, Repr

/-- `Path(s).expanduser()`: a `~/`-prefixed path is re-anchored at the
home directory; an absolute path is unchanged. -/
def RawPath.expanduser (home : FsPath) : RawPath → FsPath
  | .absolute p => p
  | .homeRelative rel => rel ++ home

/-- Default of the `global_components` field of `ClaudeContextConfig`. -/
def defaultGlobalComponents : List String :=
  ["CLAUDE.md", "agents", "commands", "skills", "rules", "settings.json"]

/-- `ClaudeContextConfig` (dataclass): the context-inclusion policy. -/
structure ClaudeContextConfig where
  include_global : Bool := true
  global_components : List String := defaultGlobalComponents
  auto_discover_parents : Bool := true
  parent_max_depth : Int := 3
  extra_paths : List RawPath := []
deriving DecidableEq, Repr

/-- The `"global"` sub-dictionary of the persisted `claude_context`
record; each recognized key may be absent. -/
structure GlobalDict where
  include_ : Option Bool := none
  components : Option (List String) := none
deriving DecidableEq, Repr

/-- The `"parents"` sub-dictionary of the persisted `claude_context` record. -/
structure ParentsDict where
  auto_discover : Option Bool := none
  max_depth : Option Int := none
deriving DecidableEq, Repr

/-- The persisted `claude_context` dictionary with its three recognized
keys, each possibly absent. -/
structure CCDict where
  globalCfg : Option GlobalDict := none
  parents : Option ParentsDict := none
  extra : Option (List RawPath) := none
deriving DecidableEq, Repr

/-- Python truthiness of the dictionary: `not data` holds exactly when the
dictionary is empty. -/
def CCDict.isEmptyDict (d : CCDict) : Bool :=
  d.globalCfg.isNone && d.parents.isNone && d.extra.isNone

/-- `ClaudeContextConfig.from_dict(data)`: an empty dictionary yields the
defaults; otherwise each option is read with its default via `.get`. -/
def ClaudeContextConfig.from_dict (data : CCDict) : ClaudeContextConfig :=
  if data.isEmptyDict then {}
  else
    let global_config := data.globalCfg.getD {}
    let parents_config := data.parents.getD {}
    { include_global := global_config.include_.getD true,
      global_components := global_config.components.getD defaultGlobalComponents,
      auto_discover_parents := parents_config.auto_discover.getD true,
      parent_max_depth := parents_config.max_depth.getD 3,
      extra_paths := data.extra.getD [] }

/-- `ClaudeContextConfig.to_dict()`: every key written out. -/
def ClaudeContextConfig.to_dict (c : ClaudeContextConfig) : CCDict :=
  { globalCfg := some { include_ := some c.include_global, components := some c.global_components },
    parents := some { auto_discover := some c.auto_discover_parents, max_depth := some c.parent_max_depth },
    extra := some c.extra_paths }

/-- The observable states of the persisted `csb.json` record: absent,
present but not parseable as JSON (or unreadable), or parsed with an
optional `claude_context` entry. -/
inductive CsbJsonState where
  | absent
  | corrupt
  | parsed (claude_context : Option CCDict)
deriving DecidableEq

/-- The configuration-loading step shared by the `list`, `sync` and
`refresh` commands (`cli_claude.py`): when `csb.json` exists its text is
passed to `json.loads` — which raises on corrupt input, and no handler
catches that error (`handle_csb_errors` catches only `CsbError`) — and
the `claude_context` entry (default `{}`) is passed to `from_dict`;
when the file does not exist the default configuration is used. -/
def loadClaudeConfig : CsbJsonState → Except Unit ClaudeContextConfig
  | .absent => .ok {}
  | .corrupt => .error ()
  | .parsed cc => .ok (ClaudeContextConfig.from_dict (cc.getD {}))

/-- The extra-path loop of `ClaudeContext.sync`: each configured extra
path is tilde-expanded; existing paths are scanned with depth
`100 + len(contexts)` and appended when they have content. -/
def addExtras (fs : FS) (home : FsPath) (extras : List RawPath)
    (contexts : List DiscoveredContext) : List DiscoveredContext :=
  extras.foldl
    (fun ctxs ep =>
      let path := ep.expanduser home
      if fs.existsP path then
        let ctx := scanDirectory fs path ((100 : Int) + ctxs.length)
        if ctx.has_content then ctxs ++ [ctx] else ctxs
      else ctxs)
    contexts

/-- `f"level-{depth}"`: the per-level staging directory name. -/
def levelName (depth : Int) : String := "level-" ++ Int.repr depth

/-- `CONTEXT_DIR_NAME` (`"claude-context"`). -/
def contextDirName : String := "claude-context"

/-- Python `dict` assignment `m[k] = v` on an insertion-ordered mapping:
replaces in place when the key is present, appends otherwise. -/
def dictInsert : List (FsPath × FsPath) → FsPath → FsPath → List (FsPath × FsPath)
  | [], k, v => [(k, v)]
  | (k', v') :: rest, k, v =>
    if k' = k then (k, v) :: rest else (k', v') :: dictInsert rest k v

/-- The staging directory tree under `.devcontainer/claude-context/`,
tracked per staged artifact: the staged path (relative to
`.devcontainer/`) together with the source it was copied from. -/
structure Staging where
  entries : List (FsPath × FsPath)
deriving DecidableEq

/-- One iteration of the copy loop of `ClaudeContext.copy_contexts`:
copy a directory-valued artifact when the source is (still) a directory,
recording the staged-path → source-path entry. -/
def copyDir (fs : FS) (parent_dir : FsPath) (dir_name : String) (src : Option FsPath)
    (m : List (FsPath × FsPath)) : List (FsPath × FsPath) :=
  match src with
  | some s => if fs.isDir s then dictInsert m (dir_name :: parent_dir) s else m
  | none => m

/-- A single-file copy step of `ClaudeContext.copy_contexts`
(`shutil.copy2` of `CLAUDE.md` / `CLAUDE.local.md` when present),
recording the staged-path → source-path entry. -/
def copyFile (parent_dir : FsPath) (file_name : String) (src : Option FsPath)
    (m : List (FsPath × FsPath)) : List (FsPath × FsPath) :=
  match src with
  | some s => dictInsert m (file_name :: parent_dir) s
  | none => m

/-- The per-context body of the copy loop of `ClaudeContext.copy_contexts`:
the global context (depth `-1`) is never copied; otherwise the two
instruction documents and the four sub-collection directories are copied
into `parents/level-<depth>/`, each copy recorded in the mapping. -/
def stageContext (fs : FS) (m : List (FsPath × FsPath)) (ctx : DiscoveredContext) :
    List (FsPath × FsPath) :=
  if ctx.relative_depth = -1 then m
  else
    let parent_dir : FsPath := [levelName ctx.relative_depth, "parents", contextDirName]
    copyDir fs parent_dir "commands" ctx.commands_dir
      (copyDir fs parent_dir "agents" ctx.agents_dir
        (copyDir fs parent_dir "skills" ctx.skills_dir
          (copyDir fs parent_dir "rules" ctx.rules_dir
            (copyFile parent_dir "CLAUDE.local.md" ctx.claude_local_md
              (copyFile parent_dir "CLAUDE.md" ctx.claude_md m)))))

/-- `ClaudeContext.copy_contexts(contexts, config)`: the pre-existing
staging tree is deleted wholesale (`shutil.rmtree`) and recreated empty,
so the previous staging state does not contribute; then every context is
staged in order and the staged-path → source-path mapping is returned
(the staged tree holds exactly the copied artifacts). -/
def copy_contexts (fs : FS) (prevStaging : Staging) (contexts : List DiscoveredContext) :
    Staging × List (FsPath × FsPath) :=
  let m := contexts.foldl (stageContext fs) []
  (⟨m⟩, m)

/-- The discovery phase of `ClaudeContext.sync(config)`: ancestors when
`auto_discover_parents` is set, then the extra sources appended. -/
def gatherContexts (fs : FS) (home projectPath : FsPath) (config : ClaudeContextConfig) :
    List DiscoveredContext :=
  addExtras fs home config.extra_paths
    (if config.auto_discover_parents then
      discover_parent_contexts fs home projectPath config.parent_max_depth
    else [])

/-- `ClaudeContext.sync(config)`: discover ancestors when enabled, append
the extra sources, then rebuild the staging tree. -/
def sync (fs : FS) (home projectPath : FsPath) (config : ClaudeContextConfig)
    (prevStaging : Staging) : Staging × List (FsPath × FsPath) :=
  copy_contexts fs prevStaging (gatherContexts fs home projectPath config)

/-! ### Claim C10: `from_dict ∘ to_dict` is the identity -/

/-- C10: for every `ClaudeContextConfig` value `c`,
`ClaudeContextConfig.from_dict (c.to_dict)` equals `c`: serialization to
the persisted dictionary form and deserialization back is the identity
on all five policy fields. -/
theorem from_dict_to_dict_id (c : ClaudeContextConfig) :
    ClaudeContextConfig.from_dict c.to_dict = c := by
  cases c
  simp [ClaudeContextConfig.from_dict, ClaudeContextConfig.to_dict, CCDict.isEmptyDict]

/-! ### Claim C1: corrupt `csb.json` -/

/-- C1 counterexample: a `csb.json` that exists but is corrupt does
**not** load as the default policy; `json.loads` raises and no handler
turns that into a fallback, so the load step fails hard. -/
theorem corrupt_config_fails :
    loadClaudeConfig CsbJsonState.corrupt = Except.error () ∧
      loadClaudeConfig CsbJsonState.corrupt ≠
        Except.ok ({} : ClaudeContextConfig) := by
  constructor
  · rfl
  · intro h
    exact Except.noConfusion h

/-- C1 amended: when `csb.json` is absent, or parses with a missing or
empty `claude_context` entry, the `list`/`sync`/`refresh` loading step
proceeds with the default `ClaudeContextConfig` (`include_global = true`,
`auto_discover_parents = true`, `parent_max_depth = 3`, empty
`extra_paths`); a corrupt or unreadable `csb.json`, by contrast, makes
the load fail with the JSON parser's error. -/
theorem load_config_defaults (s : CsbJsonState)
    (h : s = CsbJsonState.absent ∨ s = CsbJsonState.parsed none ∨
         s = CsbJsonState.parsed (some {})) :
    loadClaudeConfig s =
      Except.ok { include_global := true, global_components := defaultGlobalComponents,
                  auto_discover_parents := true, parent_max_depth := 3,
                  extra_paths := [] } := by
  rcases h with h | h | h <;> subst h <;> rfl

theorem load_config_defaults_witness :
    (CsbJsonState.parsed none = CsbJsonState.absent ∨
       CsbJsonState.parsed none = CsbJsonState.parsed none ∨
       CsbJsonState.parsed none = CsbJsonState.parsed (some {})) ∧
      loadClaudeConfig (CsbJsonState.parsed none) =
        Except.ok { include_global := true, global_components := defaultGlobalComponents,
                    auto_discover_parents := true, parent_max_depth := 3,
                    extra_paths := [] } :=
  ⟨Or.inr (Or.inl rfl), load_config_defaults (CsbJsonState.parsed none) (Or.inr (Or.inl rfl))⟩

/-! ### Claim C3: `.claude/CLAUDE.md` takes precedence over the root one -/

/-- Concrete snapshot: a project directory `/proj` holding `CLAUDE.md`
both at its root and inside `.claude/`. -/
def fsC3 : FS :=
  { files := [["CLAUDE.md", "proj"], ["CLAUDE.md", ".claude", "proj"]],
    dirs := [[], ["proj"], [".claude", "proj"]] }

/-- The path `/proj` in the snapshot `fsC3`. -/
def pC3 : FsPath := ["proj"]

/-- C3: when a directory `D` holds a `CLAUDE.md` both directly at its
root and inside its `.claude/` subdirectory, scanning `D` records the
`.claude/` copy as the level's instructions document, not the root
copy. -/
theorem scan_claude_dir_precedence (fs : FS) (D : FsPath) (d : Int)
    (hfile : fs.isFile D = false)
    (hroot : fs.existsP ("CLAUDE.md" :: D) = true)
    (hcdir : fs.isDir (".claude" :: D) = true)
    (hinner : fs.existsP ("CLAUDE.md" :: ".claude" :: D) = true) :
    (scanDirectory fs D d).claude_md = some ("CLAUDE.md" :: ".claude" :: D) ∧
      (scanDirectory fs D d).claude_md ≠ some ("CLAUDE.md" :: D) := by
  have hne : ("CLAUDE.md" :: ".claude" :: D : FsPath) ≠ "CLAUDE.md" :: D := by
    intro h
    have := List.tail_eq_of_cons_eq h
    exact (List.cons_ne_self _ _) this
  constructor
  · simp [scanDirectory, hfile, hcdir, hinner]
  · simp [scanDirectory, hfile, hcdir, hinner, hne]

theorem scan_claude_dir_precedence_witness :
    (fsC3.isFile pC3 = false ∧ fsC3.existsP ("CLAUDE.md" :: pC3) = true ∧
       fsC3.isDir (".claude" :: pC3) = true ∧
       fsC3.existsP ("CLAUDE.md" :: ".claude" :: pC3) = true) ∧
      (scanDirectory fsC3 pC3 1).claude_md = some ("CLAUDE.md" :: ".claude" :: pC3) ∧
        (scanDirectory fsC3 pC3 1).claude_md ≠ some ("CLAUDE.md" :: pC3) :=
  ⟨⟨by decide, by decide, by decide, by decide⟩,
    scan_claude_dir_precedence fsC3 pC3 1 (by decide) (by decide) (by decide) (by decide)⟩

/-! ### Claim C9: scanning a missing path never raises and yields no content -/

/-- C9: on a well-formed filesystem snapshot, scanning a path that does
not exist returns a `DiscoveredContext` with none of the six optional
artifact fields set, and `has_content` is `false` (the scan is total —
it never raises). -/
theorem scan_missing_path (fs : FS) (p : FsPath) (d : Int)
    (hwf : fs.wfb = true) (hmiss : fs.existsP p = false) :
    scanDirectory fs p d = { source_path := p, relative_depth := d } ∧
      (scanDirectory fs p d).has_content = false := by
  have hnotFile : fs.isFile p = false := by
    have := hmiss
    simp only [FS.existsP, Bool.or_eq_false_iff] at this
    exact this.1
  have hchild : ∀ n : String, fs.existsP (n :: p) = false := by
    intro n
    by_contra hc
    have hc' : fs.existsP (n :: p) = true := by
      cases h : fs.existsP (n :: p) with
      | false => exact absurd h hc
      | true => rfl
    have : fs.isDir p = true := FS.wfb_parent hwf hc'
    have : fs.existsP p = true := by
      simp [FS.existsP, this]
    rw [this] at hmiss
    exact Bool.noConfusion hmiss
  have hchildDir : ∀ n : String, fs.isDir (n :: p) = false := by
    intro n
    have := hchild n
    simp only [FS.existsP, Bool.or_eq_false_iff] at this
    exact this.2
  have h1 := hchild "CLAUDE.md"
  have h2 := hchild "CLAUDE.local.md"
  have h3 := hchildDir ".claude"
  refine ⟨?_, ?_⟩
  · simp [scanDirectory, hnotFile, h1, h2, h3]
  · simp [scanDirectory, hnotFile, h1, h2, h3, DiscoveredContext.has_content]

theorem scan_missing_path_witness :
    (fsC3.wfb = true ∧ fsC3.existsP ["nope"] = false) ∧
      scanDirectory fsC3 ["nope"] 2 = { source_path := ["nope"], relative_depth := 2 } ∧
        (scanDirectory fsC3 ["nope"] 2).has_content = false :=
  ⟨⟨by decide, by decide⟩, scan_missing_path fsC3 ["nope"] 2 (by decide) (by decide)⟩

/-! ### The ancestor walker: unfolding equations and structural lemmas -/

theorem discoverFrom_nil (fs : FS) (home : FsPath) (d : Nat) (maxD : Int) :
    discoverFrom fs home [] d maxD = [] := rfl

theorem discoverFrom_cons (fs : FS) (home : FsPath) (c : String) (rest : FsPath)
    (d : Nat) (maxD : Int) :
    discoverFrom fs home (c :: rest) d maxD =
      if (d : Int) > maxD then []
      else if c :: rest = home then discoverFrom fs home rest (d + 1) maxD
      else
        (if (scanDirectory fs (c :: rest) (d : Int)).has_content then
            [scanDirectory fs (c :: rest) (d : Int)]
          else []) ++ discoverFrom fs home rest (d + 1) maxD := rfl

theorem discoverFrom_mem (fs : FS) (home : FsPath) :
    ∀ (cur : FsPath) (d : Nat) (maxD : Int),
      ∀ ctx ∈ discoverFrom fs home cur d maxD,
        ctx.source_path ≠ home ∧ (d : Int) ≤ ctx.relative_depth
  | [], d, maxD => by
      intro ctx h
      simp [discoverFrom_nil] at h
  | c :: rest, d, maxD => by
      intro ctx h
      have hrec : ctx ∈ discoverFrom fs home rest (d + 1) maxD →
          ctx.source_path ≠ home ∧ (d : Int) ≤ ctx.relative_depth := by
        intro hr
        have := discoverFrom_mem fs home rest (d + 1) maxD ctx hr
        refine ⟨this.1, ?_⟩
        have h2 := this.2
        push_cast at h2 ⊢
        omega
      rw [discoverFrom_cons] at h
      split_ifs at h with h1 h2 h3
      · simp at h
      · exact hrec h
      · rcases List.mem_append.mp h with hl | hr
        · have hctx : ctx = scanDirectory fs (c :: rest) (d : Int) := by
            simpa using hl
          subst hctx
          refine ⟨?_, ?_⟩
          · rw [scanDirectory_source_path]; exact h2
          · rw [scanDirectory_relative_depth]
        · exact hrec hr
      · rw [List.nil_append] at h
        exact hrec h

/-! ### Claim C6: the home directory is skipped, depth still advances -/

/-- C6: no level emitted by `discover_parent_contexts` has the home
directory as its source (all emitted levels have positive depth), and
when the climb reaches the home directory within the depth bound it
scans nothing there, increments the depth counter and continues from the
home directory's parent. -/
theorem home_dir_excluded (fs : FS) (home p : FsPath) (maxD : Int) :
    (∀ ctx ∈ discover_parent_contexts fs home p maxD,
        ctx.source_path ≠ home ∧ 0 < ctx.relative_depth) ∧
      (∀ (c : String) (rest : FsPath) (d : Nat), home = c :: rest → ¬((d : Int) > maxD) →
          discoverFrom fs home (c :: rest) d maxD = discoverFrom fs home rest (d + 1) maxD) := by
  constructor
  · intro ctx h
    have := discoverFrom_mem fs home p.tail 1 maxD ctx h
    exact ⟨this.1, by have h2 := this.2; push_cast at h2; omega⟩
  · intro c rest d hhome hd
    rw [discoverFrom_cons, if_neg hd, if_pos hhome.symm]

/-- Concrete snapshot for the home-exclusion claim: project
`/home/alice/code/proj`, home `/home`, a `CLAUDE.md` in
`/home/alice/code` and one in `/home` itself. -/
def fsC6 : FS :=
  { files := [["CLAUDE.md", "code", "alice", "home"], ["CLAUDE.md", "home"]],
    dirs := [[], ["home"], ["alice", "home"], ["code", "alice", "home"],
             ["proj", "code", "alice", "home"]] }

/-- The project path `/home/alice/code/proj`. -/
def pC6 : FsPath := ["proj", "code", "alice", "home"]

theorem home_dir_excluded_witness :
    (scanDirectory fsC6 ["code", "alice", "home"] 1 ∈
        discover_parent_contexts fsC6 ["home"] pC6 3) ∧
      ((scanDirectory fsC6 ["code", "alice", "home"] 1).source_path ≠ ["home"] ∧
        0 < (scanDirectory fsC6 ["code", "alice", "home"] 1).relative_depth) ∧
      ((["home"] : FsPath) = "home" :: [] → ¬((3 : Nat) : Int) > 3 →
        discoverFrom fsC6 ["home"] ["home"] 3 3 = discoverFrom fsC6 ["home"] [] 4 3) :=
  ⟨by decide,
    (home_dir_excluded fsC6 ["home"] pC6 3).1 _ (by decide),
    (home_dir_excluded fsC6 ["home"] pC6 3).2 "home" [] 3⟩

/-! ### Claim C2: full-content ancestor chains -/

theorem discoverFrom_full (fs : FS) (home : FsPath) :
    ∀ (cur : FsPath) (d : Nat) (maxD : Int),
      ((d : Int) + cur.length ≤ maxD + 1) →
      (∀ i, i < cur.length → cur.drop i ≠ home) →
      (∀ i, i < cur.length →
        (scanDirectory fs (cur.drop i) ((d : Int) + i)).has_content = true) →
      discoverFrom fs home cur d maxD =
        (List.range cur.length).map (fun i => scanDirectory fs (cur.drop i) ((d : Int) + i))
  | [], d, maxD, _, _, _ => by simp [discoverFrom_nil]
  | c :: rest, d, maxD, hbound, hhome, hcontent => by
      have hlen : ((c :: rest : FsPath)).length = rest.length + 1 := by simp
      have hd : ¬((d : Int) > maxD) := by
        rw [hlen] at hbound
        push_cast at hbound
        omega
      have hh : (c :: rest : FsPath) ≠ home := by
        have := hhome 0 (by simp)
        simpa using this
      have hc : (scanDirectory fs (c :: rest) (d : Int)).has_content = true := by
        have := hcontent 0 (by simp)
        simpa using this
      have ih := discoverFrom_full fs home rest (d + 1) maxD
        (by rw [hlen] at hbound; push_cast at hbound ⊢; omega)
        (by
          intro i hi
          have := hhome (i + 1) (by simp; omega)
          simpa [List.drop_succ_cons] using this)
        (by
          intro i hi
          have := hcontent (i + 1) (by simp; omega)
          rw [List.drop_succ_cons] at this
          have harg : ((d : Int) + ((i + 1 : Nat) : Int)) = (((d + 1 : Nat)) : Int) + i := by
            push_cast; ring
          rwa [harg] at this)
      rw [discoverFrom_cons, if_neg hd, if_neg hh, hc, if_pos rfl, ih, hlen,
        List.range_succ_eq_map, List.map_cons, List.map_map, List.singleton_append]
      refine List.cons_eq_cons.mpr ⟨?_, ?_⟩
      · simp
      · refine List.map_congr_left ?_
        intro i _
        simp only [Function.comp_apply, List.drop_succ_cons]
        congr 1
        push_cast
        ring

/-- Concrete snapshot for the ancestor-chain counterexample: the single
non-root ancestor `/p` of the project `/p/proj` is the home directory
and has a `CLAUDE.md`. -/
def fsC2 : FS :=
  { files := [["CLAUDE.md", "p"], ["CLAUDE.md"]],
    dirs := [[], ["p"], ["proj", "p"]] }

/-- C2 counterexample: project `/p/proj` whose single non-root ancestor
`/p` has content (a `CLAUDE.md`), chain length `1 ≤ max_depth = 3`, yet
`discover_parent_contexts` returns no level at all, because `/p` is the
home directory and is skipped. -/
theorem full_chain_home_counterexample :
    ((["proj", "p"] : FsPath).tail.length : Int) ≤ 3 ∧
      (∀ i, i < (["proj", "p"] : FsPath).tail.length →
        (scanDirectory fsC2 ((["proj", "p"] : FsPath).tail.drop i) ((i : Int) + 1)).has_content
          = true) ∧
      (["proj", "p"] : FsPath).tail.length = 1 ∧
      discover_parent_contexts fsC2 ["p"] ["proj", "p"] 3 = [] := by
  refine ⟨by decide, ?_, by decide, by decide⟩
  decide

/-- C2 amended: for an ancestor chain in which every non-root ancestor
has content **and the home directory is not among those ancestors**,
`discover_parent_contexts` returns exactly one level per ancestor,
closest first, with `relative_depth` values `1, 2, …, L` where `L` is
the chain length (bounded by `max_depth`). -/
theorem full_chain_all_levels (fs : FS) (home p : FsPath) (maxD : Int)
    (hbound : (p.tail.length : Int) ≤ maxD)
    (hhome : ∀ i, i < p.tail.length → p.tail.drop i ≠ home)
    (hcontent : ∀ i, i < p.tail.length →
      (scanDirectory fs (p.tail.drop i) ((1 : Int) + i)).has_content = true) :
    discover_parent_contexts fs home p maxD =
        (List.range p.tail.length).map
          (fun i => scanDirectory fs (p.tail.drop i) ((1 : Int) + i)) ∧
      (discover_parent_contexts fs home p maxD).map (fun ctx => ctx.relative_depth) =
        (List.range p.tail.length).map (fun (i : Nat) => (i : Int) + 1) ∧
      (discover_parent_contexts fs home p maxD).map (fun ctx => ctx.source_path) =
        (List.range p.tail.length).map (fun i => p.tail.drop i) ∧
      (discover_parent_contexts fs home p maxD).length = p.tail.length := by
  have hmain : discover_parent_contexts fs home p maxD =
      (List.range p.tail.length).map
        (fun i => scanDirectory fs (p.tail.drop i) ((1 : Int) + i)) := by
    have := discoverFrom_full fs home p.tail 1 maxD (by push_cast; omega) hhome
      (by intro i hi; simpa using hcontent i hi)
    simpa [discover_parent_contexts] using this
  refine ⟨hmain, ?_, ?_, ?_⟩
  · rw [hmain, List.map_map]
    apply List.map_congr_left
    intro i _
    simp [scanDirectory_relative_depth]
    ring
  · rw [hmain, List.map_map]
    apply List.map_congr_left
    intro i _
    simp [scanDirectory_source_path]
  · rw [hmain]
    simp

theorem full_chain_all_levels_witness :
    (((["x", "proj"] : FsPath).tail.length : Int) ≤ 3 ∧
        (∀ i, i < (["x", "proj"] : FsPath).tail.length →
          (["x", "proj"] : FsPath).tail.drop i ≠ (["h"] : FsPath)) ∧
        (∀ i, i < (["x", "proj"] : FsPath).tail.length →
          (scanDirectory fsC3 ((["x", "proj"] : FsPath).tail.drop i) ((1 : Int) + i)).has_content
            = true)) ∧
      (discover_parent_contexts fsC3 ["h"] ["x", "proj"] 3 =
          (List.range (["x", "proj"] : FsPath).tail.length).map
            (fun i => scanDirectory fsC3 ((["x", "proj"] : FsPath).tail.drop i) ((1 : Int) + i)) ∧
        (discover_parent_contexts fsC3 ["h"] ["x", "proj"] 3).map (fun ctx => ctx.relative_depth) =
          (List.range (["x", "proj"] : FsPath).tail.length).map (fun (i : Nat) => (i : Int) + 1) ∧
        (discover_parent_contexts fsC3 ["h"] ["x", "proj"] 3).map (fun ctx => ctx.source_path) =
          (List.range (["x", "proj"] : FsPath).tail.length).map
            (fun i => (["x", "proj"] : FsPath).tail.drop i) ∧
        (discover_parent_contexts fsC3 ["h"] ["x", "proj"] 3).length =
          (["x", "proj"] : FsPath).tail.length) :=
  ⟨⟨by decide, by decide, by decide⟩,
    full_chain_all_levels fsC3 ["h"] ["x", "proj"] 3 (by decide) (by decide) (by decide)⟩

/-! ### Claim C8: extra-source resolution -/

/-- The list of contexts the extra-path loop appends when `n` levels have
already been collected: an existing, content-bearing extra is scanned at
depth `100 + n` and bumps the count; a missing or content-free extra
leaves the count unchanged and contributes nothing. -/
def extrasFrom (fs : FS) (home : FsPath) : List RawPath → Nat → List DiscoveredContext
  | [], _ => []
  | ep :: rest, n =>
    let path := ep.expanduser home
    if fs.existsP path then
      if (scanDirectory fs path ((100 : Int) + n)).has_content then
        scanDirectory fs path ((100 : Int) + n) :: extrasFrom fs home rest (n + 1)
      else extrasFrom fs home rest n
    else extrasFrom fs home rest n

theorem addExtras_eq_append (fs : FS) (home : FsPath) :
    ∀ (extras : List RawPath) (ctxs : List DiscoveredContext),
      addExtras fs home extras ctxs = ctxs ++ extrasFrom fs home extras ctxs.length
  | [], ctxs => by simp [addExtras, extrasFrom]
  | ep :: rest, ctxs => by
      have hstep : addExtras fs home (ep :: rest) ctxs =
          addExtras fs home rest
            (if fs.existsP (ep.expanduser home) then
              (if (scanDirectory fs (ep.expanduser home)
                    ((100 : Int) + ctxs.length)).has_content then
                ctxs ++ [scanDirectory fs (ep.expanduser home) ((100 : Int) + ctxs.length)]
              else ctxs)
            else ctxs) := rfl
      rw [hstep]
      split_ifs with h1 h2
      · rw [addExtras_eq_append fs home rest]
        have hlen : (ctxs ++ [scanDirectory fs (ep.expanduser home)
            ((100 : Int) + ctxs.length)]).length = ctxs.length + 1 := by simp
        rw [hlen, List.append_assoc]
        show _ = ctxs ++ extrasFrom fs home (ep :: rest) ctxs.length
        rw [extrasFrom]
        simp only [h1, if_pos, h2, if_true, List.singleton_append]
      · rw [addExtras_eq_append fs home rest]
        show _ = ctxs ++ extrasFrom fs home (ep :: rest) ctxs.length
        rw [extrasFrom]
        simp [h1, h2]
      · rw [addExtras_eq_append fs home rest]
        show _ = ctxs ++ extrasFrom fs home (ep :: rest) ctxs.length
        rw [extrasFrom]
        simp [h1]

theorem extrasFrom_filter_missing (fs : FS) (home : FsPath) :
    ∀ (extras : List RawPath) (n : Nat),
      extrasFrom fs home extras n =
        extrasFrom fs home (extras.filter fun ep => fs.existsP (ep.expanduser home)) n
  | [], n => by simp [extrasFrom]
  | ep :: rest, n => by
      by_cases h1 : fs.existsP (ep.expanduser home) = true
      · rw [extrasFrom, List.filter_cons_of_pos (by simpa using h1), extrasFrom]
        simp only [h1, if_true]
        split_ifs with h2
        · rw [extrasFrom_filter_missing fs home rest (n + 1)]
        · rw [extrasFrom_filter_missing fs home rest n]
      · rw [extrasFrom, List.filter_cons_of_neg (by simpa using h1)]
        simp only [h1]
        rw [if_neg (by simp [h1]), extrasFrom_filter_missing fs home rest n]

theorem extrasFrom_get (fs : FS) (home : FsPath) :
    ∀ (extras : List RawPath) (n : Nat) (j : Nat)
      (hj : j < (extrasFrom fs home extras n).length),
      ((extrasFrom fs home extras n).get ⟨j, hj⟩).relative_depth = (100 : Int) + n + j ∧
        ∃ ep ∈ extras, fs.existsP (ep.expanduser home) = true ∧
          (extrasFrom fs home extras n).get ⟨j, hj⟩ =
            scanDirectory fs (ep.expanduser home) ((100 : Int) + n + j)
  | [], n, j, hj => by simp [extrasFrom] at hj
  | ep :: rest, n, j, hj => by
      by_cases h1 : fs.existsP (ep.expanduser home) = true
      · by_cases h2 : (scanDirectory fs (ep.expanduser home)
            ((100 : Int) + n)).has_content = true
        · have hunf : extrasFrom fs home (ep :: rest) n =
              scanDirectory fs (ep.expanduser home) ((100 : Int) + n) ::
                extrasFrom fs home rest (n + 1) := by
            rw [extrasFrom]; simp only [h1, h2, if_true]
          match j with
          | 0 =>
            refine ⟨?_, ep, List.mem_cons_self _ _, h1, ?_⟩ <;>
              simp [hunf, scanDirectory_relative_depth]
          | j' + 1 =>
            have hj' : j' < (extrasFrom fs home rest (n + 1)).length := by
              have := hj
              rw [hunf] at this
              simpa using this
            have ih := extrasFrom_get fs home rest (n + 1) j' hj'
            have hget : (extrasFrom fs home (ep :: rest) n).get ⟨j' + 1, hj⟩ =
                (extrasFrom fs home rest (n + 1)).get ⟨j', hj'⟩ := by
              simp [hunf]
            refine ⟨?_, ?_⟩
            · rw [hget, ih.1]; push_cast; ring
            · obtain ⟨ep', hmem, hex, heq⟩ := ih.2
              refine ⟨ep', List.mem_cons_of_mem _ hmem, hex, ?_⟩
              rw [hget, heq]
              congr 1
              push_cast
              ring
        · have hunf : extrasFrom fs home (ep :: rest) n = extrasFrom fs home rest n := by
            rw [extrasFrom]; simp [h1, h2]
          have hj' : j < (extrasFrom fs home rest n).length := by rw [← hunf]; exact hj
          have ih := extrasFrom_get fs home rest n j hj'
          have hget : (extrasFrom fs home (ep :: rest) n).get ⟨j, hj⟩ =
              (extrasFrom fs home rest n).get ⟨j, hj'⟩ :=
            List.get_of_eq hunf ⟨j, hj⟩
          refine ⟨by rw [hget]; exact ih.1, ?_⟩
          obtain ⟨ep', hmem, hex, heq⟩ := ih.2
          exact ⟨ep', List.mem_cons_of_mem _ hmem, hex, by rw [hget]; exact heq⟩
      · have hunf : extrasFrom fs home (ep :: rest) n = extrasFrom fs home rest n := by
          rw [extrasFrom]; simp [h1]
        have hj' : j < (extrasFrom fs home rest n).length := by rw [← hunf]; exact hj
        have ih := extrasFrom_get fs home rest n j hj'
        have hget : (extrasFrom fs home (ep :: rest) n).get ⟨j, hj⟩ =
            (extrasFrom fs home rest n).get ⟨j, hj'⟩ :=
          List.get_of_eq hunf ⟨j, hj⟩
        refine ⟨by rw [hget]; exact ih.1, ?_⟩
        obtain ⟨ep', hmem, hex, heq⟩ := ih.2
        exact ⟨ep', List.mem_cons_of_mem _ hmem, hex, by rw [hget]; exact heq⟩

/-- C8: the extra-path loop tilde-expands each configured extra path and
checks it for existence; missing paths are silently skipped (filtering
them out changes nothing); every retained extra is a scan of the
expanded path of some existing configured extra, tagged with depth
`100 + (count of levels already collected when it was processed)`, so
the `j`-th retained extra carries depth `100 + |contexts| + j` — the
retained extras receive monotonically increasing, pairwise distinct
depths within one pass. -/
theorem extra_paths_resolution (fs : FS) (home : FsPath) (extras : List RawPath)
    (ctxs : List DiscoveredContext) :
    addExtras fs home extras ctxs = ctxs ++ extrasFrom fs home extras ctxs.length ∧
      extrasFrom fs home extras ctxs.length =
        extrasFrom fs home (extras.filter fun ep => fs.existsP (ep.expanduser home))
          ctxs.length ∧
      ∀ (j : Nat) (hj : j < (extrasFrom fs home extras ctxs.length).length),
        ((extrasFrom fs home extras ctxs.length).get ⟨j, hj⟩).relative_depth =
            (100 : Int) + ctxs.length + j ∧
          ∃ ep ∈ extras, fs.existsP (ep.expanduser home) = true ∧
            (extrasFrom fs home extras ctxs.length).get ⟨j, hj⟩ =
              scanDirectory fs (ep.expanduser home) ((100 : Int) + ctxs.length + j) :=
  ⟨addExtras_eq_append fs home extras ctxs,
    extrasFrom_filter_missing fs home extras ctxs.length,
    fun j hj => extrasFrom_get fs home extras ctxs.length j hj⟩

theorem extra_paths_resolution_witness :
    addExtras fsC3 ["h"] [RawPath.absolute ["gone"], RawPath.absolute ["proj"]] [] =
        [] ++ extrasFrom fsC3 ["h"] [RawPath.absolute ["gone"], RawPath.absolute ["proj"]]
          (List.length ([] : List DiscoveredContext)) ∧
      extrasFrom fsC3 ["h"] [RawPath.absolute ["gone"], RawPath.absolute ["proj"]]
          (List.length ([] : List DiscoveredContext)) =
        extrasFrom fsC3 ["h"]
          (List.filter (fun ep => fsC3.existsP (ep.expanduser ["h"]))
            [RawPath.absolute ["gone"], RawPath.absolute ["proj"]])
          (List.length ([] : List DiscoveredContext)) ∧
      ∀ (j : Nat)
        (hj : j < (extrasFrom fsC3 ["h"]
          [RawPath.absolute ["gone"], RawPath.absolute ["proj"]]
          (List.length ([] : List DiscoveredContext))).length),
        ((extrasFrom fsC3 ["h"] [RawPath.absolute ["gone"], RawPath.absolute ["proj"]]
              (List.length ([] : List DiscoveredContext))).get ⟨j, hj⟩).relative_depth =
            (100 : Int) + (List.length ([] : List DiscoveredContext)) + j ∧
          ∃ ep ∈ [RawPath.absolute ["gone"], RawPath.absolute ["proj"]],
            fsC3.existsP (ep.expanduser ["h"]) = true ∧
              (extrasFrom fsC3 ["h"] [RawPath.absolute ["gone"], RawPath.absolute ["proj"]]
                  (List.length ([] : List DiscoveredContext))).get ⟨j, hj⟩ =
                scanDirectory fsC3 (ep.expanduser ["h"])
                  ((100 : Int) + (List.length ([] : List DiscoveredContext)) + j) :=
  extra_paths_resolution fsC3 ["h"] [RawPath.absolute ["gone"], RawPath.absolute ["proj"]] []

/-! ### Claim C4: sync is idempotent under unchanged sources -/

/-- C4: running `sync` twice against the same source filesystem state,
home, project and policy produces an identical staged-path → source-path
mapping both times (same keys, same values), and an identical staging
tree: the second run starts from the staging state the first one left
behind, which the full rebuild discards. -/
theorem sync_idempotent (fs : FS) (home p : FsPath) (config : ClaudeContextConfig)
    (prev : Staging) :
    (sync fs home p config ((sync fs home p config prev).1)).2 =
        (sync fs home p config prev).2 ∧
      (sync fs home p config ((sync fs home p config prev).1)).1 =
        (sync fs home p config prev).1 :=
  ⟨rfl, rfl⟩

/-! ### Claim C5: full rebuild, no stale staged artifacts -/

theorem mem_dictInsert {k v : FsPath} :
    ∀ {m : List (FsPath × FsPath)} {kv : FsPath × FsPath},
      kv ∈ dictInsert m k v → kv ∈ m ∨ kv = (k, v)
  | [], kv, h => by simpa [dictInsert] using h
  | (k', v') :: rest, kv, h => by
      rw [dictInsert] at h
      split_ifs at h with hk
      · rcases List.mem_cons.mp h with h | h
        · exact Or.inr h
        · exact Or.inl (List.mem_cons_of_mem _ h)
      · rcases List.mem_cons.mp h with h | h
        · exact Or.inl (h ▸ List.mem_cons_self _ _)
        · rcases mem_dictInsert h with h | h
          · exact Or.inl (List.mem_cons_of_mem _ h)
          · exact Or.inr h

theorem copyDir_mem {fs : FS} {parent_dir : FsPath} {dir_name : String}
    {src : Option FsPath} {m : List (FsPath × FsPath)} {kv : FsPath × FsPath}
    (h : kv ∈ copyDir fs parent_dir dir_name src m) :
    kv ∈ m ∨ (src = some kv.2 ∧ fs.isDir kv.2 = true) := by
  cases src with
  | none =>
    simp only [copyDir] at h
    exact Or.inl h
  | some s =>
    simp only [copyDir] at h
    split_ifs at h with hdir
    · rcases mem_dictInsert h with h | h
      · exact Or.inl h
      · right
        have hv : kv.2 = s := by rw [h]
        exact ⟨by rw [hv], by rw [hv]; exact hdir⟩
    · exact Or.inl h

theorem copyFile_mem {parent_dir : FsPath} {file_name : String}
    {src : Option FsPath} {m : List (FsPath × FsPath)} {kv : FsPath × FsPath}
    (h : kv ∈ copyFile parent_dir file_name src m) :
    kv ∈ m ∨ src = some kv.2 := by
  cases src with
  | none =>
    simp only [copyFile] at h
    exact Or.inl h
  | some s =>
    simp only [copyFile] at h
    rcases mem_dictInsert h with h | h
    · exact Or.inl h
    · right
      have hv : kv.2 = s := by rw [h]
      rw [hv]

theorem stageContext_mem {fs : FS} {m : List (FsPath × FsPath)}
    {ctx : DiscoveredContext} {kv : FsPath × FsPath}
    (h : kv ∈ stageContext fs m ctx) :
    kv ∈ m ∨ ctx.claude_md = some kv.2 ∨ ctx.claude_local_md = some kv.2 ∨
      fs.isDir kv.2 = true := by
  unfold stageContext at h
  split_ifs at h with hd
  · exact Or.inl h
  · rcases copyDir_mem h with h | ⟨_, hdir⟩
    swap
    · exact Or.inr (Or.inr (Or.inr hdir))
    rcases copyDir_mem h with h | ⟨_, hdir⟩
    swap
    · exact Or.inr (Or.inr (Or.inr hdir))
    rcases copyDir_mem h with h | ⟨_, hdir⟩
    swap
    · exact Or.inr (Or.inr (Or.inr hdir))
    rcases copyDir_mem h with h | ⟨_, hdir⟩
    swap
    · exact Or.inr (Or.inr (Or.inr hdir))
    rcases copyFile_mem h with h | hlm
    swap
    · exact Or.inr (Or.inr (Or.inl hlm))
    rcases copyFile_mem h with h | hcm
    · exact Or.inl h
    · exact Or.inr (Or.inl hcm)

theorem copy_fold_values (fs : FS) :
    ∀ (contexts : List DiscoveredContext) (m0 : List (FsPath × FsPath)),
      (∀ kv ∈ m0, fs.existsP kv.2 = true) →
      (∀ ctx ∈ contexts,
        (∀ q, ctx.claude_md = some q → fs.existsP q = true) ∧
          (∀ q, ctx.claude_local_md = some q → fs.existsP q = true)) →
      ∀ kv ∈ contexts.foldl (stageContext fs) m0, fs.existsP kv.2 = true
  | [], m0, hm0, _ => by simpa using hm0
  | ctx :: rest, m0, hm0, hctxs => by
      intro kv hkv
      rw [List.foldl_cons] at hkv
      refine copy_fold_values fs rest (stageContext fs m0 ctx) ?_
        (fun c hc => hctxs c (List.mem_cons_of_mem _ hc)) kv hkv
      intro kv' hkv'
      rcases stageContext_mem hkv' with h | h | h | h
      · exact hm0 kv' h
      · exact (hctxs ctx (List.mem_cons_self _ _)).1 kv'.2 h
      · exact (hctxs ctx (List.mem_cons_self _ _)).2 kv'.2 h
      · simp [FS.existsP, h]

theorem scan_claude_md_exists {fs : FS} {p : FsPath} {d : Int} {q : FsPath}
    (h : (scanDirectory fs p d).claude_md = some q) : fs.existsP q = true := by
  unfold scanDirectory at h
  split_ifs at h <;> simp only [Option.some.injEq] at h <;> subst h <;>
    first
      | assumption
      | simp [FS.existsP, *]

theorem scan_claude_local_md_exists {fs : FS} {p : FsPath} {d : Int} {q : FsPath}
    (h : (scanDirectory fs p d).claude_local_md = some q) : fs.existsP q = true := by
  unfold scanDirectory at h
  split_ifs at h <;> simp only [Option.some.injEq] at h <;> subst h <;>
    first
      | assumption
      | simp [FS.existsP, *]

theorem discoverFrom_mem_scan (fs : FS) (home : FsPath) :
    ∀ (cur : FsPath) (d : Nat) (maxD : Int),
      ∀ ctx ∈ discoverFrom fs home cur d maxD, ∃ p dd, ctx = scanDirectory fs p dd
  | [], d, maxD => by
      intro ctx h
      simp [discoverFrom_nil] at h
  | c :: rest, d, maxD => by
      intro ctx h
      rw [discoverFrom_cons] at h
      split_ifs at h with h1 h2 h3
      · simp at h
      · exact discoverFrom_mem_scan fs home rest (d + 1) maxD ctx h
      · rcases List.mem_append.mp h with hl | hr
        · exact ⟨c :: rest, (d : Int), by simpa using hl⟩
        · exact discoverFrom_mem_scan fs home rest (d + 1) maxD ctx hr
      · rw [List.nil_append] at h
        exact discoverFrom_mem_scan fs home rest (d + 1) maxD ctx h

theorem extrasFrom_mem_scan (fs : FS) (home : FsPath) :
    ∀ (extras : List RawPath) (n : Nat),
      ∀ ctx ∈ extrasFrom fs home extras n, ∃ p dd, ctx = scanDirectory fs p dd
  | [], n => by
      intro ctx h
      simp [extrasFrom] at h
  | ep :: rest, n => by
      intro ctx h
      rw [extrasFrom] at h
      split_ifs at h with h1 h2
      · rcases List.mem_cons.mp h with hl | hr
        · exact ⟨ep.expanduser home, (100 : Int) + n, hl⟩
        · exact extrasFrom_mem_scan fs home rest (n + 1) ctx hr
      · exact extrasFrom_mem_scan fs home rest n ctx h
      · exact extrasFrom_mem_scan fs home rest n ctx h

theorem gatherContexts_mem_scan (fs : FS) (home p : FsPath) (config : ClaudeContextConfig) :
    ∀ ctx ∈ gatherContexts fs home p config, ∃ q dd, ctx = scanDirectory fs q dd := by
  intro ctx h
  rw [gatherContexts, addExtras_eq_append] at h
  rcases List.mem_append.mp h with hl | hr
  · split_ifs at hl with hauto
    · exact discoverFrom_mem_scan fs home p.tail 1 config.parent_max_depth ctx hl
    · simp at hl
  · exact extrasFrom_mem_scan fs home config.extra_paths _ ctx hr

/-- C5: every `sync` deletes the entire pre-existing staging tree and
rebuilds it from scratch — the resulting staging tree and mapping do not
depend on the previous staging state at all — and every staged entry's
source exists in the current filesystem snapshot; consequently a source
artifact `X` deleted before a second sync (so that it no longer exists)
has no staged copy after that sync and no mapping entry referring to
it. -/
theorem sync_full_rebuild (fs : FS) (home p : FsPath) (config : ClaudeContextConfig)
    (prev prev' : Staging) (X : FsPath) (hgone : fs.existsP X = false) :
    sync fs home p config prev = sync fs home p config prev' ∧
      (∀ kv ∈ (sync fs home p config prev).1.entries, fs.existsP kv.2 = true ∧ kv.2 ≠ X) ∧
      (∀ kv ∈ (sync fs home p config prev).2, fs.existsP kv.2 = true ∧ kv.2 ≠ X) := by
  have hvals : ∀ kv ∈ (sync fs home p config prev).2, fs.existsP kv.2 = true := by
    intro kv hkv
    refine copy_fold_values fs (gatherContexts fs home p config) [] (by simp) ?_ kv hkv
    intro ctx hctx
    obtain ⟨q, dd, rfl⟩ := gatherContexts_mem_scan fs home p config ctx hctx
    exact ⟨fun q' h => scan_claude_md_exists h, fun q' h => scan_claude_local_md_exists h⟩
  have hentries : (sync fs home p config prev).1.entries = (sync fs home p config prev).2 := rfl
  refine ⟨rfl, ?_, ?_⟩
  · intro kv hkv
    rw [hentries] at hkv
    refine ⟨hvals kv hkv, ?_⟩
    intro hX
    have := hvals kv hkv
    rw [hX, hgone] at this
    exact Bool.noConfusion this
  · intro kv hkv
    refine ⟨hvals kv hkv, ?_⟩
    intro hX
    have := hvals kv hkv
    rw [hX, hgone] at this
    exact Bool.noConfusion this

/-- Snapshot before the deletion: the parent `/base` of project
`/base/proj` has `.claude/CLAUDE.md` and a `.claude/skills/foo`
skill directory. -/
def fsC5a : FS :=
  { files := [["CLAUDE.md", ".claude", "base"]],
    dirs := [[], ["base"], ["proj", "base"], [".claude", "base"],
             ["skills", ".claude", "base"], ["foo", "skills", ".claude", "base"]] }

/-- Snapshot after the deletion: the `.claude/skills` tree is gone. -/
def fsC5b : FS :=
  { files := [["CLAUDE.md", ".claude", "base"]],
    dirs := [[], ["base"], ["proj", "base"], [".claude", "base"]] }

theorem sync_full_rebuild_witness :
    fsC5b.existsP ["skills", ".claude", "base"] = false ∧
      (∃ kv ∈ (sync fsC5a ["h"] ["proj", "base"] {} ⟨[]⟩).1.entries,
        kv.2 = ["skills", ".claude", "base"]) ∧
      (sync fsC5b ["h"] ["proj", "base"] {} (sync fsC5a ["h"] ["proj", "base"] {} ⟨[]⟩).1 =
          sync fsC5b ["h"] ["proj", "base"] {} ⟨[]⟩ ∧
        (∀ kv ∈ (sync fsC5b ["h"] ["proj", "base"] {}
            (sync fsC5a ["h"] ["proj", "base"] {} ⟨[]⟩).1).1.entries,
          fsC5b.existsP kv.2 = true ∧ kv.2 ≠ ["skills", ".claude", "base"]) ∧
        (∀ kv ∈ (sync fsC5b ["h"] ["proj", "base"] {}
            (sync fsC5a ["h"] ["proj", "base"] {} ⟨[]⟩).1).2,
          fsC5b.existsP kv.2 = true ∧ kv.2 ≠ ["skills", ".claude", "base"])) :=
  ⟨by decide, by decide,
    sync_full_rebuild fsC5b ["h"] ["proj", "base"] {}
      (sync fsC5a ["h"] ["proj", "base"] {} ⟨[]⟩).1 ⟨[]⟩
      ["skills", ".claude", "base"] (by decide)⟩

/-! ### Decimal representations: facts about `Nat.repr` / `Int.repr`
needed for the `level-<depth>` naming scheme of the generated setup
script. -/

/-- The decimal digit list of `n`, most significant first; structural
version of core's fuel-based `Nat.toDigitsCore`. -/
def digitsAux (n : Nat) : List Char :=
  if h : n < 10 then [Nat.digitChar n]
  else digitsAux (n / 10) ++ [Nat.digitChar (n % 10)]
decreasing_by exact Nat.div_lt_self (by omega) (by omega)

theorem toDigitsCore_eq_digitsAux :
    ∀ (fuel n : Nat) (ds : List Char), n < fuel →
      Nat.toDigitsCore 10 fuel n ds = digitsAux n ++ ds
  | 0, n, ds, h => absurd h (Nat.not_lt_zero n)
  | fuel + 1, n, ds, h => by
      rw [Nat.toDigitsCore]
      by_cases h10 : n < 10
      · have hdiv : n / 10 = 0 := Nat.div_eq_of_lt h10
        rw [if_pos hdiv, digitsAux, dif_pos h10, Nat.mod_eq_of_lt h10]
        rfl
      · have hdiv : ¬(n / 10 = 0) := by omega
        rw [if_neg hdiv]
        have hlt : n / 10 < fuel := by
          have h1 : n / 10 < n := Nat.div_lt_self (by omega) (by omega)
          omega
        rw [toDigitsCore_eq_digitsAux fuel (n / 10) _ hlt]
        rw [show digitsAux n = digitsAux (n / 10) ++ [Nat.digitChar (n % 10)] from by
          rw [digitsAux]; rw [dif_neg h10]]
        simp

theorem repr_data_eq_digitsAux (n : Nat) : (Nat.repr n).data = digitsAux n := by
  show (Nat.toDigits 10 n).asString.data = digitsAux n
  rw [Nat.toDigits, toDigitsCore_eq_digitsAux (n + 1) n [] (Nat.lt_succ_self n)]
  simp [List.asString]

theorem digitChar_isDigit {k : Nat} (h : k < 10) : (Nat.digitChar k).isDigit = true := by
  interval_cases k <;> decide

theorem digitsAux_all_digits (n : Nat) : ∀ c ∈ digitsAux n, c.isDigit = true := by
  induction n using Nat.strong_induction_on with
  | _ n ih =>
    intro c hc
    rw [digitsAux] at hc
    split_ifs at hc with h10
    · simp at hc
      rw [hc]
      exact digitChar_isDigit h10
    · rcases List.mem_append.mp hc with h | h
      · exact ih (n / 10) (Nat.div_lt_self (by omega) (by omega)) c h
      · simp at h
        rw [h]
        exact digitChar_isDigit (Nat.mod_lt n (by omega))

theorem digitsAux_ne_nil (n : Nat) : digitsAux n ≠ [] := by
  rw [digitsAux]
  split_ifs with h10
  · simp
  · simp

/-- Reading back a digit list, most significant first. -/
def parseDigits (l : List Char) : Nat :=
  l.foldl (fun a c => 10 * a + (c.toNat - 48)) 0

theorem foldl_digits_append (l : List Char) (c : Char) (a : Nat) :
    (l ++ [c]).foldl (fun a c => 10 * a + (c.toNat - 48)) a =
      10 * l.foldl (fun a c => 10 * a + (c.toNat - 48)) a + (c.toNat - 48) := by
  rw [List.foldl_append]
  rfl

theorem digitChar_toNat {k : Nat} (h : k < 10) : (Nat.digitChar k).toNat - 48 = k := by
  interval_cases k <;> decide

theorem parseDigits_digitsAux (n : Nat) : parseDigits (digitsAux n) = n := by
  induction n using Nat.strong_induction_on with
  | _ n ih =>
    rw [digitsAux]
    split_ifs with h10
    · have hsing : parseDigits [Nat.digitChar n] = 10 * 0 + ((Nat.digitChar n).toNat - 48) := rfl
      rw [hsing, digitChar_toNat h10]
      omega
    · rw [parseDigits, foldl_digits_append]
      have := ih (n / 10) (Nat.div_lt_self (by omega) (by omega))
      rw [parseDigits] at this
      rw [this, digitChar_toNat (Nat.mod_lt n (by omega))]
      omega

theorem nat_repr_injective {m n : Nat} (h : Nat.repr m = Nat.repr n) : m = n := by
  have hdata : digitsAux m = digitsAux n := by
    rw [← repr_data_eq_digitsAux, ← repr_data_eq_digitsAux, h]
  rw [← parseDigits_digitsAux m, ← parseDigits_digitsAux n, hdata]

theorem int_repr_of_nonneg {d : Int} (h : 0 ≤ d) : Int.repr d = Nat.repr d.toNat := by
  cases d with
  | ofNat m => rfl
  | negSucc m => exact absurd h (by simp)

theorem int_repr_injective_nonneg {d1 d2 : Int} (h1 : 0 ≤ d1) (h2 : 0 ≤ d2)
    (h : Int.repr d1 = Int.repr d2) : d1 = d2 := by
  rw [int_repr_of_nonneg h1, int_repr_of_nonneg h2] at h
  have := nat_repr_injective h
  omega

theorem int_repr_nonneg_digits {d : Int} (h : 0 ≤ d) :
    (Int.repr d).data ≠ [] ∧ ∀ c ∈ (Int.repr d).data, c.isDigit = true := by
  rw [int_repr_of_nonneg h, repr_data_eq_digitsAux]
  exact ⟨digitsAux_ne_nil _, digitsAux_all_digits _⟩

theorem digit_prefix_split :
    ∀ (xs ys u v : List Char),
      (∀ a ∈ xs, a.isDigit = true) → (∀ b ∈ ys, b.isDigit = true) →
      xs ++ '-' :: u = ys ++ '-' :: v → xs = ys ∧ u = v
  | [], [], u, v, _, _, h => by
      simp at h
      exact ⟨rfl, h⟩
  | [], y :: ys, u, v, _, hys, h => by
      simp at h
      have hy := hys y (List.mem_cons_self _ _)
      rw [← h.1] at hy
      exact absurd hy (by decide)
  | x :: xs, [], u, v, hxs, _, h => by
      simp at h
      have hx := hxs x (List.mem_cons_self _ _)
      rw [h.1] at hx
      exact absurd hx (by decide)
  | x :: xs, y :: ys, u, v, hxs, hys, h => by
      simp only [List.cons_append, List.cons.injEq] at h
      obtain ⟨hxy, ht⟩ := h
      obtain ⟨hl, hr⟩ := digit_prefix_split xs ys u v
        (fun a ha => hxs a (List.mem_cons_of_mem _ ha))
        (fun b hb => hys b (List.mem_cons_of_mem _ hb)) ht
      exact ⟨by rw [hxy, hl], hr⟩

theorem append_sep_digits_cancel {a b x y : String}
    (hx : ∀ c ∈ x.data, c.isDigit = true) (hy : ∀ c ∈ y.data, c.isDigit = true)
    (h : a ++ "-level-" ++ x = b ++ "-level-" ++ y) : a = b ∧ x = y := by
  have hlit : ("-level-" : String).data = ['-', 'l', 'e', 'v', 'e', 'l', '-'] := rfl
  have hdata : a.data ++ ['-', 'l', 'e', 'v', 'e', 'l', '-'] ++ x.data =
      b.data ++ ['-', 'l', 'e', 'v', 'e', 'l', '-'] ++ y.data := by
    have hd := congrArg String.data h
    simpa [String.data_append, hlit] using hd
  have hrevsep : (['-', 'l', 'e', 'v', 'e', 'l', '-'] : List Char).reverse =
      ['-', 'l', 'e', 'v', 'e', 'l', '-'] := rfl
  have hrev : x.data.reverse ++ '-' :: 'l' :: 'e' :: 'v' :: 'e' :: 'l' :: '-' :: a.data.reverse =
      y.data.reverse ++ '-' :: 'l' :: 'e' :: 'v' :: 'e' :: 'l' :: '-' :: b.data.reverse := by
    have hr := congrArg List.reverse hdata
    simpa [List.reverse_append, hrevsep] using hr
  obtain ⟨h1, h2⟩ := digit_prefix_split x.data.reverse y.data.reverse
    ('l' :: 'e' :: 'v' :: 'e' :: 'l' :: '-' :: a.data.reverse)
    ('l' :: 'e' :: 'v' :: 'e' :: 'l' :: '-' :: b.data.reverse)
    (fun c hc => hx c (List.mem_reverse.mp hc))
    (fun c hc => hy c (List.mem_reverse.mp hc)) hrev
  simp only [List.cons.injEq, true_and] at h2
  constructor
  · apply String.ext
    have := congrArg List.reverse h2
    simpa using this
  · apply String.ext
    have := congrArg List.reverse h1
    simpa using this

theorem skill_name_decomp {n1 n2 : String} {d1 d2 : Int} (h1 : 0 ≤ d1) (h2 : 0 ≤ d2)
    (h : n1 ++ "-" ++ levelName d1 = n2 ++ "-" ++ levelName d2) : n1 = n2 ∧ d1 = d2 := by
  have ha : ∀ (n : String) (d : Int), n ++ "-" ++ levelName d = n ++ "-level-" ++ Int.repr d := by
    intro n d
    rw [levelName]
    have hassoc1 : n ++ "-" ++ ("level-" ++ Int.repr d) = n ++ "-" ++ "level-" ++ Int.repr d :=
      (String.append_assoc (n ++ "-") "level-" (Int.repr d)).symm
    rw [hassoc1, String.append_assoc n "-" "level-",
      show ("-" : String) ++ "level-" = "-level-" from by decide]
  rw [ha n1 d1, ha n2 d2] at h
  have hc := append_sep_digits_cancel (int_repr_nonneg_digits h1).2 (int_repr_nonneg_digits h2).2 h
  exact ⟨hc.1, int_repr_injective_nonneg h1 h2 hc.2⟩

theorem levelName_inj_nonneg {d1 d2 : Int} (h1 : 0 ≤ d1) (h2 : 0 ≤ d2)
    (h : levelName d1 = levelName d2) : d1 = d2 := by
  have : ("" : String) ++ "-" ++ levelName d1 = "" ++ "-" ++ levelName d2 := by rw [h]
  exact (skill_name_decomp h1 h2 this).2

/-! ### Claim C7: the generated setup procedure

`_generate_setup_script` emits a fixed-shape shell script; the
definitions below embed the effect of executing that script inside the
container against the staged tree produced from `contexts`: the
hard-coded `ln -sf` lines for parent `CLAUDE.md` files, then, for every
staged level directory (the script discovers them by glob; staged level
directories exist exactly for the contexts of depth ≠ -1), symlinks for
every skill directory and every `*.md` agent/command/rule file, each
named `<original-name>-level-<depth>` (with the `.md` suffix re-appended
for file-based items).  The script's `ln -sf` carries `-f` but not
`-n`, so its effect on an existing symbolic link depends on whether
that link points at a directory (see `lnSF`). -/

/-- `CLAUDE_HOME="/home/claude/.claude"` of the generated script. -/
def claudeHome : FsPath := [".claude", "claude", "home"]

/-- `CONTEXT_DIR="/workspace/.devcontainer/claude-context"` of the
generated script. -/
def contextDirPath : FsPath := ["claude-context", ".devcontainer", "workspace"]

/-- The staged directory `$CONTEXT_DIR/parents/level-<depth>`. -/
def stagedLevelDir (d : Int) : FsPath := levelName d :: "parents" :: contextDirPath

/-- `ln -sf "$skill" "$CLAUDE_HOME/skills/$(basename $skill)-$level_name"`:
the link path. -/
def skillLink (nm : String) (d : Int) : FsPath :=
  (nm ++ "-" ++ levelName d) :: "skills" :: claudeHome

/-- The target of a skill symlink: the staged skill directory. -/
def skillTarget (nm : String) (d : Int) : FsPath := nm :: "skills" :: stagedLevelDir d

/-- `ln -sf "$item" "$CLAUDE_HOME/<kind>/$(basename $item .md)-$level_name.md"`:
the link path for file-based agents/commands/rules. -/
def mdItemLink (kind : String) (nm : String) (d : Int) : FsPath :=
  (nm.dropRight 3 ++ "-" ++ levelName d ++ ".md") :: kind :: claudeHome

/-- The target of a file-based symlink: the staged `.md` file. -/
def mdItemTarget (kind : String) (nm : String) (d : Int) : FsPath :=
  nm :: kind :: stagedLevelDir d

/-- `ln -sf "$CONTEXT_DIR/parents/<level>/CLAUDE.md"
"$CLAUDE_HOME/parents/<level>-CLAUDE.md"`: the link path of the
hard-coded parent-instructions lines. -/
def parentMdLink (d : Int) : FsPath :=
  (levelName d ++ "-CLAUDE.md") :: "parents" :: claudeHome

/-- The target of a parent-instructions symlink. -/
def parentMdTarget (d : Int) : FsPath := "CLAUDE.md" :: stagedLevelDir d

/-- The names matched by the shell glob `<dir>/*` that are directories
(`[ -d ... ]`). -/
def FS.childDirNames (fs : FS) (p : FsPath) : List String :=
  (fs.dirs.filterMap fun q =>
    match q with
    | n :: rest => if rest = p then some n else none
    | [] => none).dedup

/-- The names matched by the shell glob `<dir>/*` that are regular files
(`[ -f ... ]`). -/
def FS.childFileNames (fs : FS) (p : FsPath) : List String :=
  (fs.files.filterMap fun q =>
    match q with
    | n :: rest => if rest = p then some n else none
    | [] => none).dedup

theorem mem_childDirNames {fs : FS} {p : FsPath} {nm : String} :
    nm ∈ fs.childDirNames p ↔ (nm :: p) ∈ fs.dirs := by
  rw [FS.childDirNames, List.mem_dedup, List.mem_filterMap]
  constructor
  · rintro ⟨q, hq, hmatch⟩
    cases q with
    | nil => simp at hmatch
    | cons n rest =>
      simp only [] at hmatch
      split_ifs at hmatch with hrest
      obtain rfl : n = nm := by simpa using hmatch
      rw [← hrest]
      exact hq
  · intro hmem
    exact ⟨nm :: p, hmem, by simp⟩

/-- The symlink creations the generated script performs for one staged
level (the body of its `for level_dir in "$CONTEXT_DIR/parents/level-"*`
loop): skills, then agents, then commands, then rules.  A sub-collection
is staged — and hence glob-visible — exactly when the copy phase staged
it, and its staged items are the children of the original source
directory. -/
def levelActions (fs : FS) (ctx : DiscoveredContext) : List (FsPath × FsPath × Bool) :=
  let d := ctx.relative_depth
  let skillActs :=
    match ctx.skills_dir with
    | some src =>
        if fs.isDir src then
          (fs.childDirNames src).map fun nm => (skillLink nm d, skillTarget nm d, true)
        else []
    | none => []
  let mdActs := fun (kind : String) (srcOpt : Option FsPath) =>
    match srcOpt with
    | some src =>
        if fs.isDir src then
          ((fs.childFileNames src).filter fun nm => nm.endsWith ".md").map
            fun nm => (mdItemLink kind nm d, mdItemTarget kind nm d, false)
        else []
    | none => []
  skillActs ++ mdActs "agents" ctx.agents_dir ++ mdActs "commands" ctx.commands_dir ++
    mdActs "rules" ctx.rules_dir

/-- All symlink creations of one execution of the generated script, in
order: the hard-coded parent `CLAUDE.md` links (for every context of
positive depth with an instructions document), then the glob loop over
the staged level directories (one per context of depth ≠ -1). -/
def setupActions (fs : FS) (contexts : List DiscoveredContext) :
    List (FsPath × FsPath × Bool) :=
  (contexts.filterMap fun ctx =>
    if 0 < ctx.relative_depth then
      match ctx.claude_md with
      | some _ =>
          some (parentMdLink ctx.relative_depth, parentMdTarget ctx.relative_depth, false)
      | none => none
    else none) ++
    (contexts.filter fun ctx => ctx.relative_depth ≠ -1).flatMap (levelActions fs)

/-- Association lookup (first match) on the container's symlink table:
each entry is a link path with its target and whether the target is a
directory in the staged tree (skill references point at staged
directories, all other references at staged files). -/
def lnLookup : List (FsPath × FsPath × Bool) → FsPath → Option (FsPath × Bool)
  | [], _ => none
  | (k', t', b') :: rest, k => if k' = k then some (t', b') else lnLookup rest k

/-- Creating a symlink entry at a path, replacing whatever entry is
already there (the effect of `ln -f` when no dereferencing occurs). -/
def lnWrite : List (FsPath × FsPath × Bool) → FsPath → FsPath → Bool →
    List (FsPath × FsPath × Bool)
  | [], k, t, b => [(k, t, b)]
  | (k', t', b') :: rest, k, t, b =>
    if k' = k then (k, t, b) :: rest else (k', t', b') :: lnWrite rest k t b

/-- `ln -sf target link` as the generated script invokes it (`-f`
without `-n`), against the container's symlink table.  Verified against
coreutils `ln` on a real filesystem: when `link` does not yet exist, or
exists as a symlink to a non-directory, the symlink at `link` is
created or replaced; but when `link` currently is a symlink to a
directory, `ln` dereferences it and creates the link *inside* that
directory, under the basename of `target` (replacing any entry already
at that inner path) — the existing reference itself is left
untouched. -/
def lnSF (table : List (FsPath × FsPath × Bool)) (link target : FsPath)
    (targetIsDir : Bool) : List (FsPath × FsPath × Bool) :=
  match lnLookup table link with
  | some (t, true) => lnWrite table (FsPath.name target :: t) target targetIsDir
  | some (_, false) => lnWrite table link target targetIsDir
  | none => lnWrite table link target targetIsDir

/-- One execution of the generated setup script inside the container:
its `ln -sf` operations applied in order. -/
def runScriptLn (acts table : List (FsPath × FsPath × Bool)) :
    List (FsPath × FsPath × Bool) :=
  acts.foldl (fun tb a => lnSF tb a.1 a.2.1 a.2.2) table

/-- Concrete snapshot for C7: two directories `/a` (level 1) and `/b`
(level 2), each with a skill named `foo` in `.claude/skills/`. -/
def fsC7 : FS :=
  { files := [],
    dirs := [[], ["a"], [".claude", "a"], ["skills", ".claude", "a"],
             ["foo", "skills", ".claude", "a"],
             ["b"], [".claude", "b"], ["skills", ".claude", "b"],
             ["foo", "skills", ".claude", "b"]] }

/-- The level-1 context of the C7 scenario. -/
def ctxC7a : DiscoveredContext := scanDirectory fsC7 ["a"] 1

/-- The level-2 context of the C7 scenario. -/
def ctxC7b : DiscoveredContext := scanDirectory fsC7 ["b"] 2

/-- The `ln -sf` operations of the generated script for the two staged
levels of the C7 scenario. -/
def c7Acts : List (FsPath × FsPath × Bool) := setupActions fsC7 [ctxC7a, ctxC7b]

/-- The container's symlink table after the first execution of the
generated script (container creation). -/
def c7Run1 : List (FsPath × FsPath × Bool) := runScriptLn c7Acts []

/-- The symlink table after the script is executed a second time
(the next container start / `csb claude refresh`). -/
def c7Run2 : List (FsPath × FsPath × Bool) := runScriptLn c7Acts c7Run1

/-- C7: the first half of the claim holds — one execution of the
generated procedure creates, for the same-named skill `foo` at levels 1
and 2, two references with distinct `<name>-level-<depth>` link paths,
each resolving to its own level's staged copy, and no stray entries
exist.  But the re-run half fails in the code: on a second execution,
each skill link already exists as a symlink to a directory, so
`ln -sf` without `-n` dereferences it and creates a stray
self-reference inside the staged skill directory instead of
overwriting — the existing reference is indeed left intact, but the
table gains one spurious entry per staged skill (here two), so
re-running duplicates entries and reference creation is not an
overwrite-if-exists operation.  The intent of the script (`-f`, and
re-execution at every container start) is what the claim states; the
missing `-n` is the bug. -/
theorem setup_rerun_skill_bug :
    skillLink "foo" ctxC7a.relative_depth ≠ skillLink "foo" ctxC7b.relative_depth ∧
      lnLookup c7Run1 (skillLink "foo" ctxC7a.relative_depth) =
        some (skillTarget "foo" ctxC7a.relative_depth, true) ∧
      lnLookup c7Run1 (skillLink "foo" ctxC7b.relative_depth) =
        some (skillTarget "foo" ctxC7b.relative_depth, true) ∧
      lnLookup c7Run1 ("foo" :: skillTarget "foo" ctxC7a.relative_depth) = none ∧
      c7Run1.length = 2 ∧
      lnLookup c7Run2 (skillLink "foo" ctxC7a.relative_depth) =
        some (skillTarget "foo" ctxC7a.relative_depth, true) ∧
      lnLookup c7Run2 ("foo" :: skillTarget "foo" ctxC7a.relative_depth) =
        some (skillTarget "foo" ctxC7a.relative_depth, true) ∧
      lnLookup c7Run2 ("foo" :: skillTarget "foo" ctxC7b.relative_depth) =
        some (skillTarget "foo" ctxC7b.relative_depth, true) ∧
      c7Run2.length = c7Run1.length + 2 := by
  decide

end Csb
